import Mathlib

/-
Verification of the soap-node-mongo data-access adapter.

This development gives a shallow embedding, in Lean, of the condition
compiler (MongoWhereParser), the query factory (MongoQueryFactory), the
field resolver (MongoFieldResolver), the insert-failure partition and
transaction entry points of MongoSource, the performance monitor
(MongoPerformanceMonitorImpl) and the migration manager
(MongoMigrationManager), and proves properties of those embeddings.

JavaScript objects are modelled as association lists in insertion order,
JavaScript values as the inductive type JSVal (with an explicit undefined value for
JavaScript undefined), and thrown exceptions as Except results.
-/

namespace SoapMongo

/-- JavaScript values as they occur in filters, documents and entities:
undefined, null, booleans, numbers (exact, as Int; all values appearing in
this development are safe integers), strings and arrays. -/
inductive JSVal where
  | undefined : JSVal
  | null : JSVal
  | boolv (b : Bool) : JSVal
  | num (n : Int) : JSVal
  | str (s : String) : JSVal
  | arr (vs : List JSVal) : JSVal


/-- Condition-tree nodes accepted by the current MongoWhereParser
(mongo.where.parser.ts, first revision).  The source detects the shape of a
node by structural duck typing, in the order varied / nested / manyKeys /
leaf; the four shapes have disjoint field sets, so a closed sum with one
constructor per shape is a faithful model. -/
inductive Cond where
  | leaf (left : String) (operator : String) (right : JSVal) : Cond
  | varied (conditions : List Cond) (operator : String) : Cond
  | nested (result : Cond) : Cond
  | manyKeys (left : List String) (operator : String) (right : JSVal) : Cond

/-- Predicates that can stand to the right of a field name in a produced
MongoDB filter document. `plain v` stands for the shape `{ field: v }`
(emitted both for "eq" and for the default fallback branch). -/
inductive MPred where
  | plain (v : JSVal) : MPred
  | ne (v : JSVal) : MPred
  | gt (v : JSVal) : MPred
  | gte (v : JSVal) : MPred
  | lt (v : JSVal) : MPred
  | lte (v : JSVal) : MPred
  | inList (vs : List JSVal) : MPred
  | ninList (vs : List JSVal) : MPred
  | regex (pattern : JSVal) (options : String) : MPred


/-- MongoDB filter documents produced by the where parser. -/
inductive MFilter where
  | empty : MFilter
  | andF (fs : List MFilter) : MFilter
  | orF (fs : List MFilter) : MFilter
  | field (name : String) (pred : MPred) : MFilter


/-- Character-wise translation of a SQL-style pattern into regex text,
mirroring `value.replace(/%/g, ".*").replace(/_/g, ".")`: each `%` becomes
`.*`, each `_` becomes `.`, everything else is kept.  (The second replace
cannot touch the output of the first, since `.*` contains no underscore, so
the two global replaces equal this single pass.) -/
def sqlToRegex : List Char → List Char
  | [] => []
  | '%' :: rest => '.' :: '*' :: sqlToRegex rest
  | '_' :: rest => '.' :: sqlToRegex rest
  | c :: rest => c :: sqlToRegex rest

/-- Test mirroring `pattern.startsWith(".*")` on the translated pattern. -/
def startsWithDotStar : List Char → Bool
  | '.' :: '*' :: _ => true
  | _ => false

/-- Test mirroring `pattern.endsWith(".*")` on the translated pattern. -/
def endsWithDotStar (l : List Char) : Bool :=
  match l.reverse with
  | '*' :: '.' :: _ => true
  | _ => false

/-- Anchoring step `if (!pattern.startsWith(".*")) pattern = "^" + pattern`. -/
def addCaret (p : List Char) : List Char :=
  if startsWithDotStar p then p else '^' :: p

/-- Anchoring step `if (!pattern.endsWith(".*")) pattern = pattern + "$"`. -/
def addDollar (p : List Char) : List Char :=
  if endsWithDotStar p then p else p ++ ['$']

/-- Complete regex text built by the "like" branch of createCondition for a
string value: translate the SQL wildcards, then anchor the start and the end
based on the translated text. -/
def likePattern (s : List Char) : List Char :=
  addDollar (addCaret (sqlToRegex s))

/-- Embedding of MongoWhereParser.createCondition (mongo.where.parser.ts,
first revision): a switch on the operator string.  For "like" the value is
regex-translated only when it is a string; any other value is passed through
unchanged as the regex.  The default branch silently emits `{ field: value }`,
the same shape as "eq". -/
def createCondition (field : String) (operator : String) (value : JSVal) : MFilter :=
  match operator with
  | "eq" => .field field (.plain value)
  | "ne" => .field field (.ne value)
  | "gt" => .field field (.gt value)
  | "gte" => .field field (.gte value)
  | "lt" => .field field (.lt value)
  | "lte" => .field field (.lte value)
  | "in" =>
    .field field (.inList (match value with | .arr vs => vs | v => [v]))
  | "nin" =>
    .field field (.ninList (match value with | .arr vs => vs | v => [v]))
  | "like" =>
    match value with
    | .str s => .field field (.regex (.str (String.mk (likePattern s.data))) "i")
    | v => .field field (.regex v "i")
  | _ => .field field (.plain value)

mutual

/-- Embedding of MongoWhereParser.parseCondition (mongo.where.parser.ts,
first revision).  The source's duck-typing guards also require the
`operator` (and, for a leaf, the `left` field name) to be truthy, so nodes
carrying an empty-string operator or field name fail every guard and fall
through to the final `return {}`; a varied node whose operator is neither
"and" nor "or" likewise falls through to `{}`. -/
def parseCondition : Cond → MFilter
  | .varied conditions operator =>
    if operator = "and" then .andF (parseConditions conditions)
    else if operator = "or" then .orF (parseConditions conditions)
    else .empty
  | .nested result => parseCondition result
  | .manyKeys left operator right =>
    if operator = "" then .empty
    else .orF (left.map (fun key => createCondition key operator right))
  | .leaf left operator right =>
    if left = "" ∨ operator = "" then .empty
    else createCondition left operator right

/-- Element-wise compilation of a child list, mirroring
`condition.conditions.map(cond => this.parseCondition(cond))`. -/
def parseConditions : List Cond → List MFilter
  | [] => []
  | c :: cs => parseCondition c :: parseConditions cs

end

/-- Embedding of MongoWhereParser.parse: a falsy (absent) where yields the
empty filter; otherwise the built condition tree is compiled.  At this level
`where.build()` is the identity that hands over the already-built tree. -/
def parse : Option Cond → MFilter
  | none => .empty
  | some c => parseCondition c

theorem parseConditions_eq_map (l : List Cond) :
    parseConditions l = l.map parseCondition := by
  induction l with
  | nil => rfl
  | cons c cs ih => simp [parseConditions, ih]

/-- Operator tags of the framework's where-clause vocabulary, as used by the
operator-map revision of the where parser (mongo.transaction.ts, second
part).  The first nineteen constructors are exactly the keys of that
revision's operatorMap; `like` is the framework's pattern-match operator
(used throughout the tests), which that map does not contain. -/
inductive WhereOperator where
  | isEq | isNotEq | isLt | isLte | isGt | isGte
  | isInRange | isNotInRange | isBetween | isIn | isNotIn
  | isTrue | isFalse | is0 | is1 | isNull | isNotNull
  | isEmpty | isNotEmpty
  | like
deriving DecidableEq

/-- Name of an operator tag, mirroring the `WhereOperator[operator]` reverse
enum lookup used to build the UnsupportedOperatorError message. -/
def WhereOperator.name : WhereOperator → String
  | .isEq => "isEq"
  | .isNotEq => "isNotEq"
  | .isLt => "isLt"
  | .isLte => "isLte"
  | .isGt => "isGt"
  | .isGte => "isGte"
  | .isInRange => "isInRange"
  | .isNotInRange => "isNotInRange"
  | .isBetween => "isBetween"
  | .isIn => "isIn"
  | .isNotIn => "isNotIn"
  | .isTrue => "isTrue"
  | .isFalse => "isFalse"
  | .is0 => "is0"
  | .is1 => "is1"
  | .isNull => "isNull"
  | .isNotNull => "isNotNull"
  | .isEmpty => "isEmpty"
  | .isNotEmpty => "isNotEmpty"
  | .like => "like"

/-- Values stored in the operator-map revision's operatorMap: either a
MongoDB operator key (a string such as `$eq`), or one of the three fixed
objects used for between / emptiness checks (all of them truthy). -/
inductive MongoOpVal where
  | strOp (s : String)
  | betweenObj
  | emptyObj
  | notEmptyObj
deriving DecidableEq

/-- Embedding of the operatorMap table of the operator-map where-parser
revision; `none` models the absence of a key in the table (an undefined,
falsy lookup result). -/
def operatorMap : WhereOperator → Option MongoOpVal
  | .isEq => some (.strOp "$eq")
  | .isNotEq => some (.strOp "$ne")
  | .isLt => some (.strOp "$lt")
  | .isLte => some (.strOp "$lte")
  | .isGt => some (.strOp "$gt")
  | .isGte => some (.strOp "$gte")
  | .isInRange => some (.strOp "$in")
  | .isNotInRange => some (.strOp "$nin")
  | .isBetween => some .betweenObj
  | .isIn => some (.strOp "$in")
  | .isNotIn => some (.strOp "$nin")
  | .isTrue => some (.strOp "$eq")
  | .isFalse => some (.strOp "$eq")
  | .is0 => some (.strOp "$eq")
  | .is1 => some (.strOp "$eq")
  | .isNull => some (.strOp "$eq")
  | .isNotNull => some (.strOp "$ne")
  | .isEmpty => some .emptyObj
  | .isNotEmpty => some .notEmptyObj
  | .like => none

/-- Errors raised by the condition compiler and the query factory. -/
inductive QueryErr where
  | unsupportedOperator (operator : String)
  | inconsistentUpdateParams (updates whereCount methods : Nat)
  | unknownUpdateMethod
  | typeError
deriving DecidableEq

/-- Query parts produced by parseClause: `{ [mongoOperator]: value }`, the
inclusive between range, or the two fixed emptiness objects. -/
inductive QueryPart where
  | opv (name : String) (value : JSVal)
  | betweenPart (lo hi : JSVal)
  | emptyPart
  | notEmptyPart

/-- Index access `value[i]` on a JavaScript value: an out-of-range index, or
indexing a non-array, yields undefined. -/
def jsIndex (v : JSVal) (i : Nat) : JSVal :=
  match v with
  | .arr vs => vs.getD i .undefined
  | _ => .undefined

/-- Embedding of MongoWhereParser.parseClause of the operator-map revision
(mongo.transaction.ts, second part): an operator absent from operatorMap
makes the lookup falsy and raises UnsupportedOperatorError naming the
operator; the mapped operators follow the special cases for emptiness,
between and null, and otherwise emit `{ [mongoOperator]: value }`. -/
def parseClause (operator : WhereOperator) (value : JSVal) :
    Except QueryErr QueryPart :=
  match operatorMap operator with
  | none => .error (.unsupportedOperator operator.name)
  | some mongoOperator =>
    if operator = .isEmpty then .ok .emptyPart
    else if operator = .isNotEmpty then .ok .notEmptyPart
    else if operator = .isBetween then
      .ok (.betweenPart (jsIndex value 0) (jsIndex value 1))
    else if operator = .isNull then .ok (.opv "$eq" .null)
    else
      match mongoOperator with
      | .strOp s => .ok (.opv s value)
      | _ => .ok .emptyPart

/-- Update methods of the framework's UpdateMethod enumeration. -/
inductive UpdateMethod where
  | updateOne
  | updateMany
deriving DecidableEq

/-- Single update descriptor returned by createUpdateQuery when at most one
method is given.  `update` holds the resolved payload of the `$set` update
document, and `upsert` the optional `options.upsert` flag (`some true` in
the UpdateOne branch; the UpdateMany branch builds no options object,
modelled as `none`). -/
structure SingleUpdateDescriptor where
  filter : MFilter
  update : JSVal
  upsert : Option Bool
  method : UpdateMethod

/-- Contents of one bulk-write operation produced in the multi-method
branch: `update` is again the `$set` payload of the operation, and
`upsert` mirrors the optional `operationParams.upsert` flag. -/
structure BulkOpParams where
  filter : MFilter
  update : JSVal
  upsert : Option Bool

/-- One tagged bulk-write operation: `{ updateOne: params }` or
`{ updateMany: params }`. -/
inductive BulkOp where
  | updateOne (params : BulkOpParams)
  | updateMany (params : BulkOpParams)

/-- Result shape of createUpdateQuery: one descriptor, or a batch of tagged
bulk-write operations. -/
inductive UpdateQuery where
  | single (d : SingleUpdateDescriptor)
  | bulk (ops : List BulkOp)

/-- Array access `where[i]` followed by `.build()`: when the index is out of
range the element is undefined and the `.build()` call raises a TypeError. -/
def getWhere (whr : List Cond) (i : Nat) : Except QueryErr Cond :=
  match whr.get? i with
  | some w => .ok w
  | none => .error .typeError

/-- Update payload `updates[i]` as a JavaScript value: an out-of-range
access yields undefined (no exception). -/
def getUpdate (updates : List JSVal) (i : Nat) : JSVal :=
  updates.getD i .undefined

/-- Loop body of `methods.map((method, i) => ...)` in the multi-method
branch of createUpdateQuery: for each method, compile `where[i]`, resolve
`updates[i]`, and tag the operation updateOne (with upsert set) exactly when
the method is UpdateOne, updateMany (without upsert) otherwise.
`resolveC` and `resolveV` stand for the field resolver's condition and
value resolution, passed in abstractly because the resolver revision the
factory calls is not part of the compiled sources. -/
def buildBulkOps (resolveC : Cond → Cond) (resolveV : JSVal → JSVal)
    (updates : List JSVal) (whr : List Cond) :
    Nat → List UpdateMethod → Except QueryErr (List BulkOp)
  | _, [] => .ok []
  | i, method :: rest =>
    match getWhere whr i with
    | .error e => .error e
    | .ok w =>
      let params : BulkOpParams :=
        { filter := parseCondition (resolveC w)
          update := resolveV (getUpdate updates i)
          upsert := if method = .updateOne then some true else none }
      match buildBulkOps resolveC resolveV updates whr (i + 1) rest with
      | .error e => .error e
      | .ok tail =>
        .ok ((if method = .updateOne then BulkOp.updateOne params
              else BulkOp.updateMany params) :: tail)

/-- Embedding of MongoQueryFactory.createUpdateQuery
(mongo.query-factory.ts).  The length guard runs only when more than one
method is given, and compares `(methodsSize + updatesSize + whereSize) / 3`
with `methodsSize` — in JavaScript this is exact rational division, so it is
embedded as `methodsSize + updatesSize + whereSize ≠ 3 * methodsSize`.  With
at most one method, `methods[0]` selects the branch: UpdateOne builds a
descriptor with `options.upsert = true`, UpdateMany builds one without
options, and an undefined method raises UnknownUpdateMethodError. -/
def createUpdateQuery (resolveC : Cond → Cond) (resolveV : JSVal → JSVal)
    (updates : List JSVal) (whr : List Cond) (methods : List UpdateMethod) :
    Except QueryErr UpdateQuery :=
  let updatesSize := updates.length
  let whereSize := whr.length
  let methodsSize := methods.length
  if 1 < methodsSize then
    if methodsSize + updatesSize + whereSize ≠ 3 * methodsSize then
      .error (.inconsistentUpdateParams updatesSize whereSize methodsSize)
    else
      match buildBulkOps resolveC resolveV updates whr 0 methods with
      | .error e => .error e
      | .ok ops => .ok (.bulk ops)
  else
    match methods.get? 0 with
    | some .updateOne =>
      match getWhere whr 0 with
      | .error e => .error e
      | .ok w =>
        .ok (.single
          { filter := parseCondition (resolveC w)
            update := resolveV (getUpdate updates 0)
            upsert := some true
            method := .updateOne })
    | some .updateMany =>
      match getWhere whr 0 with
      | .error e => .error e
      | .ok w =>
        .ok (.single
          { filter := parseCondition (resolveC w)
            update := resolveV (getUpdate updates 0)
            upsert := none
            method := .updateMany })
    | none => .error .unknownUpdateMethod

/-- Operator strings named by a case of the createCondition switch; every
other operator string reaches the default branch. -/
def mappedConditionOps : List String :=
  ["eq", "ne", "gt", "gte", "lt", "lte", "in", "nin", "like"]

/-- C2 counterexample: for the unmapped operator string "regexp" the current
createCondition does not fail; it silently emits the plain equality-shaped
filter `{ age: 30 }`, indistinguishable from the output for "eq". -/
theorem createCondition_unmapped_fallback_cex :
    createCondition "age" "regexp" (.num 30) = .field "age" (.plain (.num 30)) ∧
    createCondition "age" "regexp" (.num 30) = createCondition "age" "eq" (.num 30) :=
  ⟨rfl, rfl⟩

/-- C2 (amended): in the operator-map where-parser revision, every operator
absent from operatorMap makes parseClause fail with UnsupportedOperatorError
naming the operator; the current createCondition-based parser instead falls
back to emitting the equality-shaped filter `{ field: value }` for every
operator string outside its switch cases. -/
theorem unmapped_operator_behavior :
    (∀ (operator : WhereOperator) (v : JSVal), operatorMap operator = none →
      parseClause operator v = .error (.unsupportedOperator operator.name)) ∧
    (∀ (f operator : String) (v : JSVal), operator ∉ mappedConditionOps →
      createCondition f operator v = .field f (.plain v)) := by
  constructor
  · intro op v h
    simp [parseClause, h]
  · intro f op v h
    simp only [mappedConditionOps, List.mem_cons, List.not_mem_nil, or_false,
      not_or] at h
    obtain ⟨h1, h2, h3, h4, h5, h6, h7, h8, h9⟩ := h
    unfold createCondition
    split <;> simp_all

/-- Witness for the amended C2 theorem at concrete inputs: the like operator
is absent from operatorMap and parseClause rejects it by name, while
createCondition falls back to plain equality for "regexp". -/
theorem unmapped_operator_behavior_witness :
    (operatorMap .like = none ∧
      parseClause .like (.str "a%") = .error (.unsupportedOperator "like")) ∧
    ("regexp" ∉ mappedConditionOps ∧
      createCondition "age" "regexp" (.boolv true) =
        .field "age" (.plain (.boolv true))) :=
  ⟨⟨rfl, unmapped_operator_behavior.1 .like (.str "a%") rfl⟩,
   ⟨by decide, unmapped_operator_behavior.2 "age" "regexp" (.boolv true) (by decide)⟩⟩

/-- C3: compiling a composite AND node with at least one child yields exactly
the `$and` junction of the children's compilations, index by index, in the
original order — no reordering, dropping or flattening. -/
theorem parse_and_junction_preserves_children (conds : List Cond)
    (h : conds ≠ []) :
    parseCondition (.varied conds "and") = .andF (conds.map parseCondition) ∧
    (conds.map parseCondition).length = conds.length ∧
    ∀ i (hi : i < conds.length),
      (conds.map parseCondition).get ⟨i, by simpa using hi⟩ =
        parseCondition (conds.get ⟨i, hi⟩) := by
  refine ⟨?_, by simp, ?_⟩
  · simp [parseCondition, parseConditions_eq_map]
  · intro i hi
    simp

/-- Witness for C3 at a concrete two-child AND node. -/
theorem parse_and_junction_preserves_children_witness :
    (([Cond.leaf "a" "eq" (.num 1), Cond.leaf "b" "gt" (.num 2)] : List Cond) ≠ []) ∧
    parseCondition
        (.varied [Cond.leaf "a" "eq" (.num 1), Cond.leaf "b" "gt" (.num 2)] "and") =
      .andF [.field "a" (.plain (.num 1)), .field "b" (.gt (.num 2))] :=
  ⟨by simp,
   ((parse_and_junction_preserves_children
      [Cond.leaf "a" "eq" (.num 1), Cond.leaf "b" "gt" (.num 2)]
      (by simp)).1).trans rfl⟩

/-- C1 (code bug): createUpdateQuery does not reject every length mismatch.
With one method and two updates / two where clauses (lengths 2, 2, 1) the
guard is skipped entirely and a single descriptor is built from index 0,
silently ignoring the extra entries; with lengths 2, 4, 3 the three lengths
average to the methods length, the guard passes, and a three-operation batch
is built whose last `$set` payload is the undefined value read past the end
of `updates`.  In neither case is InconsistentUpdateParamsError raised. -/
theorem createUpdateQuery_mismatch_not_rejected :
    (createUpdateQuery id id [.num 10, .num 20]
        [Cond.leaf "a" "eq" (.num 1), Cond.leaf "b" "eq" (.num 2)]
        [.updateOne] =
      .ok (.single
        { filter := .field "a" (.plain (.num 1))
          update := .num 10
          upsert := some true
          method := .updateOne })) ∧
    (createUpdateQuery id id [.num 10, .num 20]
        [Cond.leaf "a" "eq" (.num 1), Cond.leaf "b" "eq" (.num 2),
         Cond.leaf "c" "eq" (.num 3), Cond.leaf "d" "eq" (.num 4)]
        [.updateOne, .updateMany, .updateOne] =
      .ok (.bulk
        [.updateOne
          { filter := .field "a" (.plain (.num 1))
            update := .num 10
            upsert := some true },
         .updateMany
          { filter := .field "b" (.plain (.num 2))
            update := .num 20
            upsert := none },
         .updateOne
          { filter := .field "c" (.plain (.num 3))
            update := .undefined
            upsert := some true }])) :=
  ⟨rfl, rfl⟩

/-- Upsert policy stated by C10 over a createUpdateQuery result: every
operation built for an UpdateOne method carries `upsert = true`, and every
operation built for an UpdateMany method carries no upsert flag. -/
def upsertPolicy (methods : List UpdateMethod) : UpdateQuery → Prop
  | .single d =>
    (d.method = .updateOne → d.upsert = some true) ∧
    (d.method = .updateMany → d.upsert = none)
  | .bulk ops =>
    ops.length = methods.length ∧
    ∀ i,
      (methods.get? i = some .updateOne →
        ∃ p, ops.get? i = some (.updateOne p) ∧ p.upsert = some true) ∧
      (methods.get? i = some .updateMany →
        ∃ p, ops.get? i = some (.updateMany p) ∧ p.upsert = none)

theorem buildBulkOps_spec (resolveC : Cond → Cond) (resolveV : JSVal → JSVal)
    (updates : List JSVal) (whr : List Cond) :
    ∀ (ms : List UpdateMethod) (i : Nat) (ops : List BulkOp),
      buildBulkOps resolveC resolveV updates whr i ms = .ok ops →
      ops.length = ms.length ∧
      ∀ j,
        (ms.get? j = some .updateOne →
          ∃ p, ops.get? j = some (.updateOne p) ∧ p.upsert = some true) ∧
        (ms.get? j = some .updateMany →
          ∃ p, ops.get? j = some (.updateMany p) ∧ p.upsert = none) := by
  intro ms
  induction ms with
  | nil =>
    intro i ops h
    simp only [buildBulkOps] at h
    cases h
    simp
  | cons m rest ih =>
    intro i ops h
    simp only [buildBulkOps] at h
    cases hw : getWhere whr i with
    | error e => rw [hw] at h; exact absurd h (by simp)
    | ok w =>
      rw [hw] at h
      cases hb : buildBulkOps resolveC resolveV updates whr (i + 1) rest with
      | error e => rw [hb] at h; exact absurd h (by simp)
      | ok tail =>
        rw [hb] at h
        simp only [Except.ok.injEq] at h
        subst h
        obtain ⟨hlen, hrel⟩ := ih (i + 1) tail hb
        refine ⟨by simp [hlen], ?_⟩
        intro j
        match j with
        | 0 =>
          cases m with
          | updateOne =>
            refine ⟨fun _ => ?_, fun hcontr => ?_⟩
            · exact ⟨{ filter := parseCondition (resolveC w)
                       update := resolveV (getUpdate updates i)
                       upsert := some true }, by simp, rfl⟩
            · simp at hcontr
          | updateMany =>
            refine ⟨fun hcontr => ?_, fun _ => ?_⟩
            · simp at hcontr
            · exact ⟨{ filter := parseCondition (resolveC w)
                       update := resolveV (getUpdate updates i)
                       upsert := none }, by simp, rfl⟩
        | j + 1 =>
          simpa using hrel j

/-- C10: for every successful createUpdateQuery call, each produced
operation or descriptor whose method is UpdateOne has upsert set to true,
and each produced for UpdateMany carries no upsert flag. -/
theorem createUpdateQuery_upsert_policy (resolveC : Cond → Cond)
    (resolveV : JSVal → JSVal) (updates : List JSVal) (whr : List Cond)
    (methods : List UpdateMethod) (r : UpdateQuery)
    (h : createUpdateQuery resolveC resolveV updates whr methods = .ok r) :
    upsertPolicy methods r := by
  unfold createUpdateQuery at h
  by_cases hm : 1 < methods.length
  · rw [if_pos hm] at h
    by_cases hg : methods.length + updates.length + whr.length ≠ 3 * methods.length
    · rw [if_pos hg] at h
      exact absurd h (by simp)
    · rw [if_neg hg] at h
      cases hb : buildBulkOps resolveC resolveV updates whr 0 methods with
      | error e => rw [hb] at h; exact absurd h (by simp)
      | ok ops =>
        rw [hb] at h
        simp only [Except.ok.injEq] at h
        subst h
        exact buildBulkOps_spec resolveC resolveV updates whr methods 0 ops hb
  · rw [if_neg hm] at h
    cases hz : methods.get? 0 with
    | none => rw [hz] at h; exact absurd h (by simp)
    | some method =>
      rw [hz] at h
      cases method with
      | updateOne =>
        cases hw : getWhere whr 0 with
        | error e => rw [hw] at h; exact absurd h (by simp)
        | ok w =>
          rw [hw] at h
          simp only [Except.ok.injEq] at h
          subst h
          exact ⟨fun _ => rfl, fun hc => nomatch hc⟩
      | updateMany =>
        cases hw : getWhere whr 0 with
        | error e => rw [hw] at h; exact absurd h (by simp)
        | ok w =>
          rw [hw] at h
          simp only [Except.ok.injEq] at h
          subst h
          constructor
          · intro hc
            exact nomatch hc
          · intro _
            rfl

/-- Witness for C10 at a concrete two-entry bulk call. -/
theorem createUpdateQuery_upsert_policy_witness :
    (createUpdateQuery id id [.num 1, .num 2]
        [Cond.leaf "a" "eq" (.num 1), Cond.leaf "b" "eq" (.num 2)]
        [.updateOne, .updateMany] =
      .ok (.bulk
        [.updateOne
          { filter := .field "a" (.plain (.num 1))
            update := .num 1
            upsert := some true },
         .updateMany
          { filter := .field "b" (.plain (.num 2))
            update := .num 2
            upsert := none }])) ∧
    upsertPolicy [.updateOne, .updateMany]
      (.bulk
        [.updateOne
          { filter := .field "a" (.plain (.num 1))
            update := .num 1
            upsert := some true },
         .updateMany
          { filter := .field "b" (.plain (.num 2))
            update := .num 2
            upsert := none }]) :=
  ⟨rfl,
   createUpdateQuery_upsert_policy id id [.num 1, .num 2]
     [Cond.leaf "a" "eq" (.num 1), Cond.leaf "b" "eq" (.num 2)]
     [.updateOne, .updateMany] _ rfl⟩

/-- Regex text contributed by one pattern character. -/
def charRegex (c : Char) : List Char :=
  if c = '%' then ['.', '*'] else if c = '_' then ['.'] else [c]

theorem sqlToRegex_cons (c : Char) (l : List Char) :
    sqlToRegex (c :: l) = charRegex c ++ sqlToRegex l := by
  by_cases h1 : c = '%'
  · subst h1; rfl
  · by_cases h2 : c = '_'
    · subst h2; rfl
    · simp [sqlToRegex, charRegex, h1, h2]

theorem sqlToRegex_append (s t : List Char) :
    sqlToRegex (s ++ t) = sqlToRegex s ++ sqlToRegex t := by
  induction s with
  | nil => rfl
  | cons c s ih => simp [sqlToRegex_cons, ih]

theorem startsWithDotStar_iff (q : List Char) :
    startsWithDotStar q = true ↔ ∃ rest, q = '.' :: '*' :: rest := by
  unfold startsWithDotStar
  split
  · rename_i rest
    simp
  · rename_i hno
    constructor
    · intro h
      cases h
    · rintro ⟨rest, rfl⟩
      exact absurd rfl (hno rest)

theorem endsWithDotStar_iff (p : List Char) :
    endsWithDotStar p = true ↔ ∃ x, p = x ++ ['.', '*'] := by
  unfold endsWithDotStar
  split
  · rename_i rest hrev
    constructor
    · intro _
      refine ⟨rest.reverse, ?_⟩
      have := congrArg List.reverse hrev
      simpa using this
    · intro _
      rfl
  · rename_i hno
    constructor
    · intro h
      cases h
    · rintro ⟨x, rfl⟩
      exact absurd (by simp) (hno x.reverse)

theorem endsWithDotStar_append_dotstar (x : List Char) :
    endsWithDotStar (x ++ ['.', '*']) = true :=
  (endsWithDotStar_iff _).2 ⟨x, rfl⟩

theorem head?_addDollar (p : List Char) (h : p ≠ []) :
    (addDollar p).head? = p.head? := by
  unfold addDollar
  split
  · rfl
  · cases p with
    | nil => exact absurd rfl h
    | cons a t => rfl

theorem likePattern_caret_iff (s : List Char) :
    (likePattern s).head? = some '^' ↔
      startsWithDotStar (sqlToRegex s) = false := by
  unfold likePattern addCaret
  cases hq : startsWithDotStar (sqlToRegex s) with
  | true =>
    obtain ⟨rest, hrest⟩ := (startsWithDotStar_iff _).1 hq
    rw [if_pos rfl, head?_addDollar _ (by rw [hrest]; simp), hrest]
    simp
  | false =>
    rw [if_neg (by simp), head?_addDollar _ (by simp)]
    simp

theorem likePattern_dollar_iff (s : List Char) :
    (likePattern s).getLast? = some '$' ↔
      endsWithDotStar (addCaret (sqlToRegex s)) = false := by
  unfold likePattern addDollar
  cases he : endsWithDotStar (addCaret (sqlToRegex s)) with
  | true =>
    obtain ⟨x, hx⟩ := (endsWithDotStar_iff _).1 he
    rw [if_pos rfl, hx]
    rw [show x ++ ['.', '*'] = (x ++ ['.']) ++ ['*'] by simp]
    simp [List.getLast?_concat]
  | false =>
    rw [if_neg (by simp)]
    simp [List.getLast?_concat]

/-- C9 counterexample: the pattern `.*` contains no SQL wildcard at all, so
by the claim both anchors should be added; the code instead inspects the
translated text, finds it starting and ending with `.*`, and emits the
unanchored case-insensitive regex `.*`. -/
theorem like_anchor_cex :
    (∀ c ∈ (".*" : String).data, c ≠ '%' ∧ c ≠ '_') ∧
    createCondition "name" "like" (.str ".*") =
      .field "name" (.regex (.str ".*") "i") :=
  ⟨by decide, rfl⟩

/-- C9 (amended): the like branch replaces `%` with `.*` and `_` with `.`
and always emits a case-insensitive regex, but decides the anchors on the
translated pattern: `^` is prepended exactly when the translated pattern
does not start with the two characters `.*`, and `$` is appended exactly
when it does not end with them.  Consequently a pattern starting with the
`%` wildcard is never start-anchored and a pattern ending with `%` is never
end-anchored, matching the claim in those cases. -/
theorem like_compilation_spec (f : String) (s : String) :
    createCondition f "like" (.str s) =
      .field f (.regex (.str (String.mk (likePattern s.data))) "i") ∧
    ((likePattern s.data).head? = some '^' ↔
      startsWithDotStar (sqlToRegex s.data) = false) ∧
    ((likePattern s.data).getLast? = some '$' ↔
      endsWithDotStar (addCaret (sqlToRegex s.data)) = false) ∧
    (∀ t, s.data = '%' :: t → startsWithDotStar (sqlToRegex s.data) = true) ∧
    (∀ t, s.data = t ++ ['%'] → (likePattern s.data).getLast? ≠ some '$') := by
  refine ⟨rfl, likePattern_caret_iff _, likePattern_dollar_iff _, ?_, ?_⟩
  · intro t ht
    rw [ht]
    rfl
  · intro t ht
    rw [ht]
    intro hcontr
    rw [likePattern_dollar_iff] at hcontr
    have hq : sqlToRegex (t ++ ['%']) = sqlToRegex t ++ ['.', '*'] := by
      rw [sqlToRegex_append]; rfl
    have hends : endsWithDotStar (addCaret (sqlToRegex (t ++ ['%']))) = true := by
      unfold addCaret
      split
      · rw [hq]
        exact endsWithDotStar_append_dotstar _
      · rw [hq, show '^' :: (sqlToRegex t ++ ['.', '*']) =
          ('^' :: sqlToRegex t) ++ ['.', '*'] by simp]
        exact endsWithDotStar_append_dotstar _
    rw [hends] at hcontr
    cases hcontr

/-- Witness for the amended C9 theorem at the concrete pattern `a%_b`. -/
theorem like_compilation_spec_witness :
    createCondition "name" "like" (.str "a%_b") =
      .field "name" (.regex (.str "^a.*.b$") "i") :=
  (like_compilation_spec "name" "a%_b").1.trans rfl

/-- Array access `documents[i]` on a list: out of range yields undefined. -/
def jsListIndex (documents : List JSVal) (i : Nat) : JSVal :=
  documents.getD i .undefined

/-- Embedding of the insert catch-block partition of MongoSource.insert
(mongo.source.ts, first revision): when the thrown error carries a
writeErrors array, an ordered batch with exactly one write error treats the
documents before the failing index as inserted and only the flagged document
as failed; otherwise every flagged document is failed and the unflagged ones
are treated as inserted.  The pair returned is
(insertedDocuments, failedDocuments). -/
def insertFailurePartition (ordered : Bool) (documents : List JSVal)
    (writeErrors : Option (List Nat)) : List JSVal × List JSVal :=
  match writeErrors with
  | none => ([], [])
  | some idxs =>
    match ordered, idxs with
    | true, [failedIndex] =>
      (documents.take failedIndex, [jsListIndex documents failedIndex])
    | _, _ =>
      ((documents.enum.filter (fun p => !(idxs.contains p.1))).map (fun p => p.2),
       idxs.map (fun i => jsListIndex documents i))

/-- Embedding of the insert catch-block partition of the monitored
MongoSource.insert (mongo.source.ts, second revision): identical ordered
single-error branch, but in every other writeErrors case all documents are
treated as failed and none as inserted. -/
def insertFailurePartitionMonitored (ordered : Bool) (documents : List JSVal)
    (writeErrors : Option (List Nat)) : List JSVal × List JSVal :=
  match writeErrors with
  | none => ([], [])
  | some idxs =>
    match ordered, idxs with
    | true, [failedIndex] =>
      (documents.take failedIndex, [jsListIndex documents failedIndex])
    | _, _ => ([], documents)

/-- C5 counterexample: an ordered three-document insert whose single write
error is at index 1 reports inserted = [d0] and failed = [d1] only; the
claim demands that d2 (every document from the failing index onward) be
failed as well, but d2 appears in neither list. -/
theorem ordered_insert_partition_cex :
    insertFailurePartition true [.num 0, .num 1, .num 2] (some [1]) =
      ([.num 0], [.num 1]) ∧
    ([JSVal.num 1] : List JSVal) ≠ [.num 1, .num 2] :=
  ⟨rfl, by simp⟩

/-- C5 (amended): for an ordered bulk insert whose store error flags exactly
one index i (in range), both source revisions treat exactly the documents
strictly before i as inserted and only the single flagged document as
failed; the documents after index i appear in neither list (the two lists
together account for i + 1 of the documents). -/
theorem ordered_insert_partition_spec (documents : List JSVal) (i : Nat)
    (h : i < documents.length) :
    insertFailurePartition true documents (some [i]) =
      (documents.take i, [jsListIndex documents i]) ∧
    (documents.take i).length = i ∧
    (documents.take i).length + 1 ≤ documents.length ∧
    insertFailurePartitionMonitored true documents (some [i]) =
      (documents.take i, [jsListIndex documents i]) := by
  refine ⟨rfl, ?_, ?_, rfl⟩
  · rw [List.length_take]
    omega
  · rw [List.length_take]
    omega

/-- Witness for the amended C5 theorem on a concrete ordered insert. -/
theorem ordered_insert_partition_spec_witness :
    (1 < ([JSVal.num 0, .num 1, .num 2] : List JSVal).length) ∧
    insertFailurePartition true [.num 0, .num 1, .num 2] (some [1]) =
      ([.num 0], [.num 1]) :=
  ⟨by simp,
   ((ordered_insert_partition_spec [.num 0, .num 1, .num 2] 1 (by simp)).1).trans rfl⟩

/-- State of a MongoDB client session held by a source: whether a
transaction is active on it. -/
structure MongoSessionSt where
  txnActive : Bool
deriving DecidableEq

/-- Errors that can surface from the two startTransaction revisions: the
legacy revision throws a CollectionError created from PendingSessionError,
the monitored revision can only surface the driver's own
transaction-in-progress error. -/
inductive TxnErr where
  | collectionPendingSession
  | driverTransactionInProgress
deriving DecidableEq

/-- Embedding of MongoSource.startTransaction (mongo.source.ts, first,
legacy revision): any existing session makes it throw
CollectionError(PendingSessionError) without touching the session;
otherwise a fresh session is started and a transaction begun on it. -/
def startTransactionLegacy (currentSession : Option MongoSessionSt) :
    Except TxnErr (Option MongoSessionSt) :=
  match currentSession with
  | some _ => .error .collectionPendingSession
  | none => .ok (some { txnActive := true })

/-- Embedding of MongoSource.startSession of the monitored revision:
idempotent, reusing an already-open session. -/
def startSessionMonitored (currentSession : Option MongoSessionSt) :
    Option MongoSessionSt :=
  match currentSession with
  | some s => some s
  | none => some { txnActive := false }

/-- Modelled from the spec: the store driver's session-level
startTransaction (an external collaborator, §6 of the spec) fails with the
driver's own transaction-in-progress error when a transaction is already
active on the session, and otherwise activates one; it never raises the
adapter's PendingSessionError. -/
def sessionStartTransaction (s : MongoSessionSt) :
    Except TxnErr MongoSessionSt :=
  if s.txnActive then .error .driverTransactionInProgress
  else .ok { txnActive := true }

/-- Embedding of MongoSource.startTransaction (mongo.source.ts, second,
monitored revision): implicitly starts a session when none exists, then
delegates to the session's own startTransaction. -/
def startTransactionMonitored (currentSession : Option MongoSessionSt) :
    Except TxnErr (Option MongoSessionSt) :=
  match startSessionMonitored currentSession with
  | some s =>
    match sessionStartTransaction s with
    | .error e => .error e
    | .ok s2 => .ok (some s2)
  | none => .ok none

/-- C6 counterexample: on the monitored source with a transaction already
active, startTransaction surfaces the driver's transaction-in-progress
error, not a PendingSessionError. -/
theorem startTransaction_monitored_no_pending_cex :
    startTransactionMonitored (some { txnActive := true }) =
      .error .driverTransactionInProgress ∧
    TxnErr.driverTransactionInProgress ≠ .collectionPendingSession :=
  ⟨rfl, by decide⟩

/-- C6 (amended): the legacy startTransaction raises the
CollectionError-wrapped PendingSessionError whenever any session already
exists (in particular whenever a transaction is active) and starts a
session implicitly and begins a transaction when none exists; the monitored
startTransaction also starts a session implicitly when none exists, but
never raises PendingSessionError — with a transaction already active it
surfaces only the driver's own error. -/
theorem startTransaction_behavior :
    (∀ s : MongoSessionSt,
      startTransactionLegacy (some s) = .error .collectionPendingSession) ∧
    startTransactionLegacy none = .ok (some { txnActive := true }) ∧
    (∀ cs, startTransactionMonitored cs ≠ .error .collectionPendingSession) ∧
    startTransactionMonitored none = .ok (some { txnActive := true }) := by
  refine ⟨fun s => rfl, rfl, ?_, rfl⟩
  intro cs
  cases cs with
  | none =>
    simp [startTransactionMonitored, startSessionMonitored,
      sessionStartTransaction]
  | some s =>
    cases hs : s.txnActive <;>
      simp [startTransactionMonitored, startSessionMonitored,
        sessionStartTransaction, hs]

/-- JavaScript `array.slice(-k)` for a non-negative count k: with k = 0 the
argument is `-0 === 0` and the whole array is returned; otherwise the last k
elements are kept. -/
def jsSliceLast (k : Nat) (l : List α) : List α :=
  if k = 0 then l else l.drop (l.length - k)

/-- Embedding of the metric-retention step of
MongoPerformanceMonitorImpl.endOperation: push the finished metric, then,
when the list has grown past maxMetrics, keep `metrics.slice(-maxMetrics)`. -/
def recordMetric (maxMetrics : Nat) (metrics : List α) (m : α) : List α :=
  let ms := metrics ++ [m]
  if maxMetrics < ms.length then jsSliceLast maxMetrics ms else ms

/-- Metrics list reached after a sequence of completed operations on an
enabled monitor that started empty. -/
def runMetrics (maxMetrics : Nat) (completions : List α) : List α :=
  completions.foldl (recordMetric maxMetrics) []

/-- C7 counterexample: with the configurable cap set to 0, the trim step
computes `metrics.slice(-0)`, which is `slice(0)` and keeps everything, so
one completed operation leaves one retained metric, above the cap. -/
theorem metrics_cap_zero_cex :
    (runMetrics 0 [(0 : Nat)]).length = 1 ∧
    ¬((runMetrics 0 [(0 : Nat)]).length ≤ 0) :=
  ⟨rfl, by decide⟩

theorem foldl_recordMetric {α : Type} (maxMetrics : Nat)
    (hmax : 1 ≤ maxMetrics) :
    ∀ (ops acc : List α), acc.length ≤ maxMetrics →
      ops.foldl (recordMetric maxMetrics) acc =
        (acc ++ ops).drop (acc.length + ops.length - maxMetrics) := by
  intro ops
  induction ops with
  | nil =>
    intro acc hacc
    simp [Nat.sub_eq_zero_of_le hacc]
  | cons m rest ih =>
    intro acc hacc
    rw [List.foldl_cons]
    by_cases hlen : maxMetrics < (acc ++ [m]).length
    · have hacclen : acc.length = maxMetrics := by
        simp at hlen
        omega
      have hacc1 : recordMetric maxMetrics acc m = (acc ++ [m]).drop 1 := by
        simp only [recordMetric, if_pos hlen, jsSliceLast,
          if_neg (by omega : ¬maxMetrics = 0)]
        congr 1
        simp
        omega
      rw [hacc1, ih _ (by simp; omega)]
      rw [← List.drop_append_of_le_length (by simp), List.drop_drop]
      congr 1
      · simp
        omega
      · simp
    · have hacc1 : recordMetric maxMetrics acc m = acc ++ [m] := by
        simp only [recordMetric, if_neg hlen]
      have hle : (acc ++ [m]).length ≤ maxMetrics := by omega
      rw [hacc1, ih _ hle]
      congr 1
      · simp
        omega
      · simp

/-- C7 (amended): for every cap maxMetrics of at least 1 and every sequence
of completed operations on an enabled monitor, the retained metrics are
exactly the most recent maxMetrics completions (the suffix of the completion
sequence), so their number never exceeds the cap; with the cap 0 the trim
is `slice(-0)` and never evicts, which the counterexample records. -/
theorem metrics_cap_retains_latest {α : Type} (maxMetrics : Nat)
    (hmax : 1 ≤ maxMetrics) (ops : List α) :
    runMetrics maxMetrics ops = ops.drop (ops.length - maxMetrics) ∧
    (runMetrics maxMetrics ops).length ≤ maxMetrics := by
  have h := foldl_recordMetric maxMetrics hmax ops [] (by simp)
  simp only [List.nil_append, List.length_nil, Nat.zero_add] at h
  refine ⟨h, ?_⟩
  rw [runMetrics, h, List.length_drop]
  omega

/-- Witness for the amended C7 theorem: cap 2, three completions, the two
most recent are retained. -/
theorem metrics_cap_retains_latest_witness :
    (1 ≤ 2) ∧ runMetrics 2 [(10 : Nat), 20, 30] = [20, 30] :=
  ⟨by decide,
   ((metrics_cap_retains_latest 2 (by decide) [(10 : Nat), 20, 30]).1).trans rfl⟩

/-- Identity and version of a registered migration unit; the remaining
fields (description, reversibility, up/down actions) play no part in
registration or duplicate detection. -/
structure MigrationUnit where
  id : String
  version : Int
deriving DecidableEq

/-- Embedding of MongoMigrationManager.register (mongo.migration.ts): it
only pushes the unit onto the registered list — there is no duplicate
check and no way for it to throw. -/
def register (migrations : List MigrationUnit) (migration : MigrationUnit) :
    List MigrationUnit :=
  migrations ++ [migration]

/-- First index of v in l, mirroring `versions.indexOf(v)` as used in the
duplicate filter: for an element of the list this is its first position; for
an absent value JavaScript returns -1 and this model returns l.length — both
compare unequal to every valid position, which is all the filter uses. -/
def jsIndexOf : List Int → Int → Nat
  | [], _ => 0
  | x :: rest, v => if x = v then 0 else jsIndexOf rest v + 1

/-- Embedding of the duplicate filter
`versions.filter((v, i) => versions.indexOf(v) !== i)` of
MongoMigrationManager.validateMigrations. -/
def jsDuplicates (versions : List Int) : List Int :=
  (versions.enum.filter (fun p => jsIndexOf versions p.2 != p.1)).map
    (fun p => p.2)

/-- Embedding of MongoMigrationManager.validateMigrations: a non-empty
duplicate list throws first; otherwise the first pending unit whose version
is already applied throws; otherwise validation passes.  This function runs
only inside migrate() and only when the validateBeforeRun flag is set. -/
def validateMigrations (migrations : List MigrationUnit)
    (appliedVersions : List Int) : Except String Unit :=
  let versions := migrations.map (fun m => m.version)
  if jsDuplicates versions ≠ [] then
    .error "Duplicate migration versions found"
  else
    match migrations.find? (fun m => appliedVersions.contains m.version) with
    | some _ => .error "Migration version already exists"
    | none => .ok ()

/-- C8 counterexample: registering a second unit with the same version as an
already-registered one raises nothing — register returns normally and both
units are retained in the registered list. -/
theorem register_accepts_duplicate_version_cex :
    register (register [] { id := "m1", version := 1 })
        { id := "m2", version := 1 } =
      [{ id := "m1", version := 1 }, { id := "m2", version := 1 }] ∧
    ({ id := "m1", version := 1 } : MigrationUnit).version =
      ({ id := "m2", version := 1 } : MigrationUnit).version :=
  ⟨rfl, rfl⟩

theorem jsIndexOf_le_of_get? :
    ∀ (l : List Int) (i : Nat) (v : Int), l.get? i = some v →
      jsIndexOf l v ≤ i := by
  intro l
  induction l with
  | nil =>
    intro i v h
    simp at h
  | cons x rest ih =>
    intro i v h
    cases i with
    | zero =>
      injection h with h
      simp [jsIndexOf, h]
    | succ i =>
      by_cases hx : x = v
      · simp [jsIndexOf, hx]
      · simp only [jsIndexOf, if_neg hx]
        exact Nat.succ_le_succ (ih i v h)

theorem mem_enumFrom_of_get? :
    ∀ (l : List Int) (j n : Nat) (v : Int), l.get? j = some v →
      (n + j, v) ∈ l.enumFrom n := by
  intro l
  induction l with
  | nil =>
    intro j n v h
    simp at h
  | cons x rest ih =>
    intro j n v h
    cases j with
    | zero =>
      injection h with h
      simp [List.enumFrom, h]
    | succ j =>
      have := ih j (n + 1) v h
      simp only [List.enumFrom, List.mem_cons]
      right
      have harith : n + (j + 1) = n + 1 + j := by omega
      rw [harith]
      exact this

theorem mem_enum_of_get? (l : List Int) (j : Nat) (v : Int)
    (h : l.get? j = some v) : (j, v) ∈ l.enum := by
  have := mem_enumFrom_of_get? l j 0 v h
  simpa [List.enum] using this

/-- C8 (amended): register accepts a duplicated version silently; duplicate
versions are detected only when migrate() runs with validateBeforeRun
enabled, where validateMigrations fails on any pending list containing two
units (at positions i < j) with the same version, before any unit is
executed. -/
theorem validateMigrations_rejects_duplicates
    (migrations : List MigrationUnit) (appliedVersions : List Int)
    (i j : Nat) (u1 u2 : MigrationUnit) (hij : i < j)
    (hi : migrations.get? i = some u1) (hj : migrations.get? j = some u2)
    (hv : u1.version = u2.version) :
    validateMigrations migrations appliedVersions =
      .error "Duplicate migration versions found" := by
  have hvi : (migrations.map (fun m => m.version)).get? i = some u2.version := by
    rw [List.get?_map, hi, ← hv]
    rfl
  have hvj : (migrations.map (fun m => m.version)).get? j = some u2.version := by
    rw [List.get?_map, hj]
    rfl
  have hidx : jsIndexOf (migrations.map (fun m => m.version)) u2.version ≤ i :=
    jsIndexOf_le_of_get? _ i _ hvi
  have hmem : (j, u2.version) ∈ (migrations.map (fun m => m.version)).enum :=
    mem_enum_of_get? _ j _ hvj
  have hfil : (j, u2.version) ∈
      (migrations.map (fun m => m.version)).enum.filter
        (fun p => jsIndexOf (migrations.map (fun m => m.version)) p.2 != p.1) := by
    rw [List.mem_filter]
    refine ⟨hmem, ?_⟩
    simp only [bne_iff_ne, ne_eq]
    omega
  have hne : jsDuplicates (migrations.map (fun m => m.version)) ≠ [] := by
    unfold jsDuplicates
    exact List.ne_nil_of_mem (List.mem_map_of_mem _ hfil)
  unfold validateMigrations
  rw [if_pos hne]

/-- Witness for the amended C8 theorem on two concretely registered units
sharing version 1. -/
theorem validateMigrations_rejects_duplicates_witness :
    (0 < 1) ∧
    ([{ id := "m1", version := 1 }, { id := "m2", version := 1 }] :
        List MigrationUnit).get? 0 = some { id := "m1", version := 1 } ∧
    ([{ id := "m1", version := 1 }, { id := "m2", version := 1 }] :
        List MigrationUnit).get? 1 = some { id := "m2", version := 1 } ∧
    validateMigrations
        [{ id := "m1", version := 1 }, { id := "m2", version := 1 }] [] =
      .error "Duplicate migration versions found" :=
  ⟨by decide, rfl, rfl,
   validateMigrations_rejects_duplicates
     [{ id := "m1", version := 1 }, { id := "m2", version := 1 }] [] 0 1
     { id := "m1", version := 1 } { id := "m2", version := 1 }
     (by decide) rfl rfl rfl⟩

/-- Bidirectional value transformer of a field mapping; either direction may
be absent, matching the separate `mapping?.transformer?.to` and
`mapping.transformer?.from` truthiness checks of the source (`from` is a
Lean keyword, so that direction is called `fromFn` here, and `toFn` for
symmetry). -/
structure Transformer where
  toFn : Option (JSVal → JSVal)
  fromFn : Option (JSVal → JSVal)

/-- PropertyInfo of a field mapping: the storage (database) field name and
an optional value transformer. -/
structure PropertyInfo where
  name : String
  transformer : Option Transformer

/-- JavaScript object as an association list in insertion order; keys of a
real object are unique, which the theorems assume explicitly where needed. -/
abbrev JSObj := List (String × JSVal)

/-- Property read `o[k]`: the value of the first entry with key k, or
undefined when the key is absent. -/
def objGet (o : JSObj) (k : String) : JSVal :=
  match o.find? (fun p => p.1 == k) with
  | some p => p.2
  | none => .undefined

/-- Key-presence test `k in o`. -/
def hasKey (o : JSObj) (k : String) : Bool :=
  (o.find? (fun p => p.1 == k)).isSome

/-- Property write `o[k] = v`: updates the first entry with key k in place,
or appends a new entry, as JavaScript objects do. -/
def objSet : JSObj → String → JSVal → JSObj
  | [], k, v => [(k, v)]
  | p :: rest, k, v => if p.1 = k then (k, v) :: rest else p :: objSet rest k v

/-- Field-mapping table `fieldMappings`, a record keyed by the domain
(entity) field name, in insertion order. -/
abbrev FieldMappings := List (String × PropertyInfo)

/-- Record access `this.fieldMappings[entityField]`. -/
def lookupFm (fm : FieldMappings) (k : String) : Option PropertyInfo :=
  (List.find? (fun p => p.1 == k) fm).map (fun p => p.2)

/-- Embedding of MongoFieldResolver.getDatabaseFieldName: the mapping's
storage name when one exists, the entity field name itself otherwise. -/
def getDatabaseFieldName (fm : FieldMappings) (entityField : String) : String :=
  match lookupFm fm entityField with
  | some mapping => mapping.name
  | none => entityField

/-- Forward value transformation of transformToDocument: applied only when
the mapping exists and carries a transformer with a `to` direction. -/
def applyToTransform (mapping : Option PropertyInfo) (value : JSVal) : JSVal :=
  match mapping with
  | some pi =>
    match pi.transformer with
    | some t =>
      match t.toFn with
      | some f => f value
      | none => value
    | none => value
  | none => value

/-- Embedding of MongoFieldResolver.transformToDocument
(mongo.field-resolver.ts): iterate the entity's entries in order, writing
each under its storage name with the `to` transform applied when present. -/
def transformToDocument (fm : FieldMappings) (entity : JSObj) : JSObj :=
  entity.foldl
    (fun doc p =>
      objSet doc (getDatabaseFieldName fm p.1)
        (applyToTransform (lookupFm fm p.1) p.2)) []

/-- Backward value transformation of transformToEntity: applied only when
the mapping carries a transformer with a `from` direction. -/
def applyFromTransform (pi : PropertyInfo) (value : JSVal) : JSVal :=
  match pi.transformer with
  | some t =>
    match t.fromFn with
    | some g => g value
    | none => value
  | none => value

/-- Embedding of MongoFieldResolver.getEntityFieldName: the first entity
field whose mapping's storage name equals the database field name. -/
def getEntityFieldName (fm : FieldMappings) (dbFieldName : String) :
    Option String :=
  (List.find? (fun p => p.2.name == dbFieldName) fm).map (fun p => p.1)

/-- JavaScript falsiness of the entity field name returned by
getEntityFieldName, as tested by the source's `if (!entityField)` guard:
undefined (no reverse mapping) is falsy, and so is the empty string, so a
mapping registered under the empty-string domain field name does not stop
the passthrough. -/
def entityFieldFalsy : Option String → Bool
  | none => true
  | some s => s == ""

/-- Embedding of MongoFieldResolver.transformToEntity
(mongo.field-resolver.ts): first every mapping writes its entity field from
the document value under its storage name (absent values read as undefined,
exactly as the source's `document[dbFieldName]` does), then every document
entry whose reverse-mapped entity field name is falsy passes through under
its own name. -/
def transformToEntity (fm : FieldMappings) (document : JSObj) : JSObj :=
  let entity := fm.foldl
    (fun ent p =>
      objSet ent p.1 (applyFromTransform p.2 (objGet document p.2.name))) []
  document.foldl
    (fun ent p =>
      if entityFieldFalsy (getEntityFieldName fm p.1) then objSet ent p.1 p.2
      else ent) entity

/-- C4 counterexample: two round trips that fail to reconstruct the entity
even though every transformer is symmetric.  First, with a mapped field b
absent from the (empty) entity, transformToEntity materialises the mapping,
so b reappears holding undefined.  Second, with a mapping registered under
the empty-string domain field name, the reverse-mapped entity field name of
its storage field B is the falsy empty string, so the passthrough guard
`if (!entityField)` fires and the round trip duplicates the value under B
as well. -/
theorem roundtrip_adds_absent_mapped_field_cex :
    (transformToEntity [("b", { name := "B", transformer := none })]
        (transformToDocument [("b", { name := "B", transformer := none })] []) =
      [("b", JSVal.undefined)] ∧
     hasKey ([] : JSObj) "b" = false) ∧
    (transformToEntity [("", { name := "B", transformer := none })]
        (transformToDocument [("", { name := "B", transformer := none })]
          [("", .num 1)]) =
      [("", .num 1), ("B", .num 1)] ∧
     hasKey [(("" : String), JSVal.num 1)] "B" = false) :=
  ⟨⟨rfl, rfl⟩, ⟨rfl, rfl⟩⟩

theorem find?_cons_eq_ite {α : Type} (pred : α → Bool) (a : α) (l : List α) :
    List.find? pred (a :: l) =
      if pred a = true then some a else List.find? pred l := by
  cases hp : pred a <;> simp [List.find?, hp]

theorem objGet_eq_undef_of_hasKey_false (o : JSObj) (k : String)
    (h : hasKey o k = false) : objGet o k = .undefined := by
  unfold hasKey at h
  unfold objGet
  cases hf : o.find? (fun p => p.1 == k) with
  | none => rfl
  | some p =>
    rw [hf] at h
    simp at h

theorem hasKey_append (a b : JSObj) (k : String) :
    hasKey (a ++ b) k = (hasKey a k || hasKey b k) := by
  unfold hasKey
  rw [List.find?_append]
  cases ha : a.find? (fun p => p.1 == k) <;> simp

theorem objGet_append_left (a b : JSObj) (k : String)
    (h : hasKey a k = true) : objGet (a ++ b) k = objGet a k := by
  unfold hasKey at h
  unfold objGet
  rw [List.find?_append]
  cases ha : a.find? (fun p => p.1 == k) with
  | none => rw [ha] at h; simp at h
  | some p => simp

theorem objGet_append_right (a b : JSObj) (k : String)
    (h : hasKey a k = false) : objGet (a ++ b) k = objGet b k := by
  unfold hasKey at h
  unfold objGet
  rw [List.find?_append]
  cases ha : a.find? (fun p => p.1 == k) with
  | none => simp
  | some p => rw [ha] at h; simp at h

theorem hasKey_iff_exists (o : JSObj) (k : String) :
    hasKey o k = true ↔ ∃ v, (k, v) ∈ o := by
  unfold hasKey
  rw [List.find?_isSome]
  constructor
  · rintro ⟨⟨k2, v⟩, hmem, hpred⟩
    simp only [beq_iff_eq] at hpred
    subst hpred
    exact ⟨v, hmem⟩
  · rintro ⟨v, hmem⟩
    exact ⟨(k, v), hmem, by simp⟩

theorem hasKey_singleton (p : String × JSVal) (k : String) :
    hasKey [p] k = (p.1 == k) := by
  unfold hasKey
  cases hp : (p.1 == k) <;> simp [List.find?, hp]

theorem objGet_of_mem_nodup (o : JSObj) (k : String) (v : JSVal)
    (hnd : (o.map (fun p => p.1)).Nodup) (hmem : (k, v) ∈ o) :
    objGet o k = v := by
  induction o with
  | nil => cases hmem
  | cons p rest ih =>
    rw [List.mem_cons] at hmem
    simp only [List.map_cons, List.nodup_cons] at hnd
    obtain ⟨hp, hnd2⟩ := hnd
    cases hmem with
    | inl h =>
      rw [← h]
      unfold objGet
      rw [find?_cons_eq_ite]
      rw [if_pos (by simp)]
    | inr h =>
      have hk : k ∈ rest.map (fun p => p.1) := by
        refine List.mem_map.2 ⟨(k, v), h, rfl⟩
      have hne : ¬(p.1 == k) = true := by
        simp only [beq_iff_eq]
        intro hcontr
        exact hp (hcontr ▸ hk)
      unfold objGet
      rw [find?_cons_eq_ite, if_neg hne]
      exact ih hnd2 h

theorem objSet_fresh (o : JSObj) (k : String) (v : JSVal)
    (h : hasKey o k = false) : objSet o k v = o ++ [(k, v)] := by
  induction o with
  | nil => rfl
  | cons p rest ih =>
    unfold hasKey at h
    rw [find?_cons_eq_ite] at h
    by_cases hpk : p.1 = k
    · rw [if_pos (by simp [hpk])] at h
      simp at h
    · rw [if_neg (by simp [hpk])] at h
      unfold objSet
      rw [if_neg hpk, ih h]
      rfl

theorem foldl_objSet_eq_append {β : Type} (f : β → String × JSVal) :
    ∀ (l : List β) (acc : JSObj),
      (l.map (fun b => (f b).1)).Nodup →
      (∀ b ∈ l, hasKey acc (f b).1 = false) →
      l.foldl (fun o b => objSet o (f b).1 (f b).2) acc = acc ++ l.map f := by
  intro l
  induction l with
  | nil =>
    intro acc _ _
    simp
  | cons b rest ih =>
    intro acc hnd hfresh
    simp only [List.map_cons, List.nodup_cons] at hnd
    obtain ⟨hb, hnd2⟩ := hnd
    rw [List.foldl_cons, objSet_fresh _ _ _ (hfresh b (List.mem_cons_self b rest))]
    rw [ih (acc ++ [f b]) hnd2 ?_]
    · simp
    · intro c hc
      rw [hasKey_append]
      have h1 : hasKey acc (f c).1 = false :=
        hfresh c (List.mem_cons_of_mem _ hc)
      have h2 : hasKey [f b] (f c).1 = false := by
        rw [hasKey_singleton]
        simp only [beq_eq_false_iff_ne, ne_eq]
        intro hcontr
        exact hb (hcontr ▸ List.mem_map.2 ⟨c, hc, rfl⟩)
      rw [h1, h2]
      rfl

/-- Document entry written for one entity entry by transformToDocument. -/
def docEntry (fm : FieldMappings) (p : String × JSVal) : String × JSVal :=
  (getDatabaseFieldName fm p.1, applyToTransform (lookupFm fm p.1) p.2)

/-- Entity entry written for one mapping by the first loop of
transformToEntity, reading from the given document. -/
def entEntry (doc : JSObj) (q : String × PropertyInfo) : String × JSVal :=
  (q.1, applyFromTransform q.2 (objGet doc q.2.name))

theorem lookupFm_mem (fm : FieldMappings) (k : String) (pi : PropertyInfo)
    (h : lookupFm fm k = some pi) : (k, pi) ∈ fm := by
  unfold lookupFm at h
  cases hf : List.find? (fun p => p.1 == k) fm with
  | none => rw [hf] at h; cases h
  | some p =>
    rw [hf] at h
    simp only [Option.map_some'] at h
    have hpred := List.find?_some hf
    have hmem := List.mem_of_find?_eq_some hf
    simp only [beq_iff_eq] at hpred
    have : p = (k, pi) := by
      cases p
      simp_all
    rw [← this]
    exact hmem

theorem isSome_opt_map {α β : Type} (f : α → β) (o : Option α) :
    (o.map f).isSome = o.isSome := by
  cases o <;> rfl

theorem lookupFm_isSome_of_mem (fm : FieldMappings) (m : String × PropertyInfo)
    (hm : m ∈ fm) (k : String) (hk : m.1 = k) : (lookupFm fm k).isSome := by
  unfold lookupFm
  rw [isSome_opt_map, List.find?_isSome]
  exact ⟨m, hm, by simp [hk]⟩

theorem getEntityFieldName_isSome_of_mem (fm : FieldMappings)
    (m : String × PropertyInfo) (hm : m ∈ fm) (k : String)
    (hk : m.2.name = k) : (getEntityFieldName fm k).isSome := by
  unfold getEntityFieldName
  rw [isSome_opt_map, List.find?_isSome]
  exact ⟨m, hm, by simp [hk]⟩

theorem fm_key_of_hasKey_entEntry (fm : FieldMappings) (doc : JSObj)
    (k : String) (h : hasKey (fm.map (entEntry doc)) k = true) :
    ∃ m ∈ fm, m.1 = k := by
  obtain ⟨v, hv⟩ := (hasKey_iff_exists _ _).1 h
  obtain ⟨m, hm, hme⟩ := List.mem_map.1 hv
  exact ⟨m, hm, congrArg Prod.fst hme⟩

theorem hasKey_entEntry_of_mem (fm : FieldMappings) (doc : JSObj)
    (k : String) (pi : PropertyInfo) (hm : (k, pi) ∈ fm) :
    hasKey (fm.map (entEntry doc)) k = true := by
  rw [hasKey_iff_exists]
  exact ⟨applyFromTransform pi (objGet doc pi.name),
    List.mem_map.2 ⟨(k, pi), hm, rfl⟩⟩

theorem transformToDocument_eq_map (fm : FieldMappings) (e : JSObj)
    (hinj : (e.map (fun p => getDatabaseFieldName fm p.1)).Nodup) :
    transformToDocument fm e = e.map (docEntry fm) :=
  foldl_objSet_eq_append (docEntry fm) e [] hinj (fun _ _ => rfl)

theorem entityFieldFalsy_eq_none (fm : FieldMappings) (k : String)
    (h7 : ∀ p ∈ fm, p.1 ≠ "")
    (h : entityFieldFalsy (getEntityFieldName fm k) = true) :
    getEntityFieldName fm k = none := by
  cases hg : getEntityFieldName fm k with
  | none => rfl
  | some s =>
    exfalso
    rw [hg] at h
    simp only [entityFieldFalsy, beq_iff_eq] at h
    unfold getEntityFieldName at hg
    cases hf : List.find? (fun p => p.2.name == k) fm with
    | none => rw [hf] at hg; cases hg
    | some m =>
      rw [hf] at hg
      simp only [Option.map_some', Option.some.injEq] at hg
      exact h7 m (List.mem_of_find?_eq_some hf) (by rw [hg, h])

theorem foldl_passthrough (fm : FieldMappings) :
    ∀ (doc ent : JSObj),
      ((doc.filter (fun p => entityFieldFalsy (getEntityFieldName fm p.1))).map
        (fun p => p.1)).Nodup →
      (∀ p ∈ doc, entityFieldFalsy (getEntityFieldName fm p.1) = true →
        hasKey ent p.1 = false) →
      doc.foldl
        (fun ent p =>
          if entityFieldFalsy (getEntityFieldName fm p.1) then
            objSet ent p.1 p.2
          else ent) ent =
      ent ++ doc.filter (fun p => entityFieldFalsy (getEntityFieldName fm p.1)) := by
  intro doc
  induction doc with
  | nil =>
    intro ent _ _
    simp
  | cons p rest ih =>
    intro ent hnd hfresh
    rw [List.foldl_cons]
    cases hg : entityFieldFalsy (getEntityFieldName fm p.1) with
    | false =>
      rw [if_neg (by simp [hg])]
      have hfil : (p :: rest).filter
          (fun q => entityFieldFalsy (getEntityFieldName fm q.1)) =
          rest.filter (fun q => entityFieldFalsy (getEntityFieldName fm q.1)) := by
        rw [List.filter_cons_of_neg]
        simp [hg]
      rw [hfil] at hnd ⊢
      exact ih ent hnd (fun q hq hqn => hfresh q (List.mem_cons_of_mem _ hq) hqn)
    | true =>
      rw [if_pos rfl]
      have hpfresh : hasKey ent p.1 = false :=
        hfresh p (List.mem_cons_self p rest) hg
      rw [objSet_fresh _ _ _ hpfresh]
      have hfil : (p :: rest).filter
          (fun q => entityFieldFalsy (getEntityFieldName fm q.1)) =
          p :: rest.filter (fun q => entityFieldFalsy (getEntityFieldName fm q.1)) := by
        rw [List.filter_cons_of_pos]
        simp [hg]
      rw [hfil] at hnd
      simp only [List.map_cons, List.nodup_cons] at hnd
      obtain ⟨hp, hnd2⟩ := hnd
      rw [ih (ent ++ [(p.1, p.2)]) hnd2 ?_]
      · rw [hfil]
        simp
      · intro q hq hqn
        rw [hasKey_append]
        have h1 : hasKey ent q.1 = false :=
          hfresh q (List.mem_cons_of_mem _ hq) hqn
        have h2 : hasKey [(p.1, p.2)] q.1 = false := by
          rw [hasKey_singleton]
          simp only [beq_eq_false_iff_ne, ne_eq]
          intro hcontr
          refine hp ?_
          rw [hcontr]
          refine List.mem_map.2 ⟨q, ?_, rfl⟩
          rw [List.mem_filter]
          exact ⟨hq, by simp [hqn]⟩
        rw [h1, h2]
        rfl

/-- Characterization of the round trip under the key-distinctness
hypotheses (including that no mapping is registered under the falsy
empty-string domain field name): the result is the mapped fields (one per
mapping, in mapping order, read back from the produced document) followed
by the unmapped entries of the produced document in their order. -/
theorem roundtrip_characterization (fm : FieldMappings) (e : JSObj)
    (h3 : (fm.map (fun p => p.1)).Nodup)
    (hinj : (e.map (fun p => getDatabaseFieldName fm p.1)).Nodup)
    (h7 : ∀ p ∈ fm, p.1 ≠ "") :
    transformToEntity fm (transformToDocument fm e) =
      fm.map (entEntry (e.map (docEntry fm))) ++
        (e.map (docEntry fm)).filter
          (fun p => entityFieldFalsy (getEntityFieldName fm p.1)) := by
  rw [transformToDocument_eq_map fm e hinj]
  unfold transformToEntity
  have hstep1 : (fm.foldl
      (fun ent p =>
        objSet ent p.1
          (applyFromTransform p.2 (objGet (e.map (docEntry fm)) p.2.name)))
      []) = fm.map (entEntry (e.map (docEntry fm))) :=
    foldl_objSet_eq_append (entEntry (e.map (docEntry fm))) fm [] h3
      (fun _ _ => rfl)
  rw [hstep1]
  have hDkeys : ((e.map (docEntry fm)).map (fun p => p.1)).Nodup := by
    rw [List.map_map]
    exact hinj
  refine foldl_passthrough fm (e.map (docEntry fm))
    (fm.map (entEntry (e.map (docEntry fm)))) ?_ ?_
  · refine List.Nodup.sublist ?_ hDkeys
    exact List.Sublist.map _ (List.filter_sublist _)
  · intro p hp hpn
    have hpnone : getEntityFieldName fm p.1 = none :=
      entityFieldFalsy_eq_none fm p.1 h7 hpn
    obtain ⟨q, hq, hqe⟩ := List.mem_map.1 hp
    cases hlk : lookupFm fm q.1 with
    | some piq =>
      exfalso
      have hp1 : p.1 = piq.name := by
        rw [← hqe]
        simp only [docEntry, getDatabaseFieldName, hlk]
      have hsome := getEntityFieldName_isSome_of_mem fm (q.1, piq)
        (lookupFm_mem fm q.1 piq hlk) p.1 (by simp [hp1])
      rw [hpnone] at hsome
      cases hsome
    | none =>
      have hp1 : p.1 = q.1 := by
        rw [← hqe]
        simp only [docEntry, getDatabaseFieldName, hlk]
      cases hk : hasKey (fm.map (entEntry (e.map (docEntry fm)))) p.1 with
      | false => rfl
      | true =>
        exfalso
        obtain ⟨m, hm, hmk⟩ := fm_key_of_hasKey_entEntry _ _ _ hk
        have := lookupFm_isSome_of_mem fm m hm q.1 (by rw [hmk, hp1])
        rw [hlk] at this
        cases this

/-- C4 (amended): the round trip reconstructs the entity — same keys, same
values — provided the mapping set is collision-free on this entity: every
mapped domain field occurs in the entity, mapping keys and entity keys are
duplicate-free, the storage names assigned to the entity's fields are
pairwise distinct, no storage name coincides with an unmapped entity field
name, no mapping is registered under the empty-string domain field name
(which is falsy to the passthrough guard), and each mapped field's
transformer is symmetric at the entity's value.  Unmapped fields pass
through under their original name unchanged.  Without the presence and
non-empty-name conditions the round trip materialises absent mapped fields
and duplicates empty-name-mapped values under their storage name (see the
counterexample), so the claim as stated fails. -/
theorem transform_round_trip (fm : FieldMappings) (e : JSObj)
    (h1 : ∀ p ∈ fm, hasKey e p.1 = true)
    (h3 : (fm.map (fun p => p.1)).Nodup)
    (h4 : (e.map (fun p => p.1)).Nodup)
    (hinj : (e.map (fun p => getDatabaseFieldName fm p.1)).Nodup)
    (h5 : ∀ p ∈ e, lookupFm fm p.1 = none → getEntityFieldName fm p.1 = none)
    (h6 : ∀ p ∈ fm, applyFromTransform p.2
        (applyToTransform (some p.2) (objGet e p.1)) = objGet e p.1)
    (h7 : ∀ p ∈ fm, p.1 ≠ "") :
    ∀ k, objGet (transformToEntity fm (transformToDocument fm e)) k = objGet e k ∧
      hasKey (transformToEntity fm (transformToDocument fm e)) k = hasKey e k := by
  intro k
  rw [roundtrip_characterization fm e h3 hinj h7]
  set D := e.map (docEntry fm) with hD
  set part1 := fm.map (entEntry D) with hpart1
  set part2 := D.filter (fun p => entityFieldFalsy (getEntityFieldName fm p.1)) with hpart2
  have hDkeys : (D.map (fun p => p.1)).Nodup := by
    rw [hD, List.map_map]
    exact hinj
  have hpart1keys : (part1.map (fun p => p.1)).Nodup := by
    rw [hpart1, List.map_map]
    exact h3
  have hpart2keys : (part2.map (fun p => p.1)).Nodup := by
    rw [hpart2]
    exact List.Nodup.sublist (List.Sublist.map _ (List.filter_sublist _)) hDkeys
  cases hlk : lookupFm fm k with
  | some pi =>
    have hkfm : (k, pi) ∈ fm := lookupFm_mem fm k pi hlk
    have hek : hasKey e k = true := h1 (k, pi) hkfm
    obtain ⟨v, hv⟩ := (hasKey_iff_exists e k).1 hek
    have hoev : objGet e k = v := objGet_of_mem_nodup e k v h4 hv
    have hK1 : hasKey part1 k = true := by
      rw [hpart1]
      exact hasKey_entEntry_of_mem fm D k pi hkfm
    have hDmem : (pi.name, applyToTransform (some pi) v) ∈ D := by
      rw [hD]
      refine List.mem_map.2 ⟨(k, v), hv, ?_⟩
      simp [docEntry, getDatabaseFieldName, hlk]
    have hDget : objGet D pi.name = applyToTransform (some pi) v :=
      objGet_of_mem_nodup D pi.name _ hDkeys hDmem
    have hp1get : objGet part1 k = applyFromTransform pi (objGet D pi.name) := by
      refine objGet_of_mem_nodup part1 k _ hpart1keys ?_
      rw [hpart1]
      exact List.mem_map.2 ⟨(k, pi), hkfm, rfl⟩
    constructor
    · rw [objGet_append_left _ _ _ hK1, hp1get, hDget, hoev]
      have h6k := h6 (k, pi) hkfm
      rw [hoev] at h6k
      exact h6k
    · simp [hasKey_append, hK1, hek]
  | none =>
    have hK1 : hasKey part1 k = false := by
      cases hk1 : hasKey part1 k with
      | false => rfl
      | true =>
        exfalso
        rw [hpart1] at hk1
        obtain ⟨m, hm, hmk⟩ := fm_key_of_hasKey_entEntry fm D k hk1
        have := lookupFm_isSome_of_mem fm m hm k hmk
        rw [hlk] at this
        cases this
    cases hek : hasKey e k with
    | true =>
      obtain ⟨v, hv⟩ := (hasKey_iff_exists e k).1 hek
      have hoev : objGet e k = v := objGet_of_mem_nodup e k v h4 hv
      have hdk : docEntry fm (k, v) = (k, v) := by
        simp [docEntry, getDatabaseFieldName, applyToTransform, hlk]
      have hDmem : (k, v) ∈ D := by
        rw [hD]
        exact List.mem_map.2 ⟨(k, v), hv, hdk⟩
      have hgek : getEntityFieldName fm k = none := h5 (k, v) hv hlk
      have h2mem : (k, v) ∈ part2 := by
        rw [hpart2, List.mem_filter]
        exact ⟨hDmem, by simp [entityFieldFalsy, hgek]⟩
      have hK2 : hasKey part2 k = true := (hasKey_iff_exists part2 k).2 ⟨v, h2mem⟩
      constructor
      · rw [objGet_append_right _ _ _ hK1,
          objGet_of_mem_nodup part2 k v hpart2keys h2mem, hoev]
      · simp [hasKey_append, hK1, hK2, hek]
    | false =>
      have hK2 : hasKey part2 k = false := by
        cases hk2 : hasKey part2 k with
        | false => rfl
        | true =>
          exfalso
          obtain ⟨w, hw⟩ := (hasKey_iff_exists part2 k).1 hk2
          rw [hpart2, List.mem_filter] at hw
          obtain ⟨hwD, hwpred⟩ := hw
          rw [hD] at hwD
          obtain ⟨q, hq, hqe⟩ := List.mem_map.1 hwD
          have hq1 : getDatabaseFieldName fm q.1 = k := by
            have := congrArg Prod.fst hqe
            simpa [docEntry] using this
          cases hlq : lookupFm fm q.1 with
          | some piq =>
            have hnm : piq.name = k := by
              rw [getDatabaseFieldName, hlq] at hq1
              exact hq1
            have hnone : getEntityFieldName fm k = none :=
              entityFieldFalsy_eq_none fm k h7 (by simpa using hwpred)
            have hsome := getEntityFieldName_isSome_of_mem fm (q.1, piq)
              (lookupFm_mem fm q.1 piq hlq) k hnm
            rw [hnone] at hsome
            cases hsome
          | none =>
            have hqk : q.1 = k := by
              rw [getDatabaseFieldName, hlq] at hq1
              exact hq1
            have hke : hasKey e k = true := by
              refine (hasKey_iff_exists e k).2 ⟨q.2, ?_⟩
              rw [← hqk]
              exact hq
            rw [hek] at hke
            cases hke
      constructor
      · rw [objGet_eq_undef_of_hasKey_false _ _
            (by rw [hasKey_append, hK1, hK2]; rfl),
          objGet_eq_undef_of_hasKey_false e k hek]
      · simp [hasKey_append, hK1, hK2, hek]

/-- Field-mapping table used by the round-trip witness: one mapped field a
stored as A with a symmetric integer shift transformer. -/
def fmW : FieldMappings :=
  [("a",
    { name := "A"
      transformer := some
        { toFn := some (fun v => match v with | .num n => .num (n + 1) | v => v)
          fromFn := some (fun v => match v with | .num n => .num (n - 1) | v => v) } })]

/-- Entity used by the round-trip witness: a mapped field a and an unmapped
passthrough field x. -/
def eW : JSObj := [("a", .num 5), ("x", .str "keep")]

/-- Witness for the amended C4 theorem at concrete inputs: the mapped field
survives the round trip through its symmetric transformer, and the unmapped
field passes through under its original name. -/
theorem transform_round_trip_witness :
    hasKey eW "a" = true ∧
    objGet (transformToEntity fmW (transformToDocument fmW eW)) "a" =
      objGet eW "a" ∧
    objGet (transformToEntity fmW (transformToDocument fmW eW)) "x" =
      objGet eW "x" := by
  have h1 : ∀ p ∈ fmW, hasKey eW p.1 = true := by
    intro p hp
    simp only [fmW] at hp
    rw [List.mem_singleton] at hp
    subst hp
    rfl
  have h3 : (fmW.map (fun p => p.1)).Nodup := by
    show (["a"] : List String).Nodup
    decide
  have h4 : (eW.map (fun p => p.1)).Nodup := by
    show (["a", "x"] : List String).Nodup
    decide
  have hinj : (eW.map (fun p => getDatabaseFieldName fmW p.1)).Nodup := by
    show (["A", "x"] : List String).Nodup
    decide
  have h5 : ∀ p ∈ eW, lookupFm fmW p.1 = none →
      getEntityFieldName fmW p.1 = none := by
    intro p hp h
    simp only [eW] at hp
    rw [List.mem_cons] at hp
    cases hp with
    | inl h1 =>
      subst h1
      simp [lookupFm, fmW, List.find?] at h
    | inr h2 =>
      rw [List.mem_singleton] at h2
      subst h2
      rfl
  have h6 : ∀ p ∈ fmW, applyFromTransform p.2
      (applyToTransform (some p.2) (objGet eW p.1)) = objGet eW p.1 := by
    intro p hp
    simp only [fmW] at hp
    rw [List.mem_singleton] at hp
    subst hp
    rfl
  have h7 : ∀ p ∈ fmW, p.1 ≠ "" := by
    intro p hp
    simp only [fmW] at hp
    rw [List.mem_singleton] at hp
    subst hp
    decide
  exact ⟨rfl,
    (transform_round_trip fmW eW h1 h3 h4 hinj h5 h6 h7 "a").1,
    (transform_round_trip fmW eW h1 h3 h4 hinj h5 h6 h7 "x").1⟩

end SoapMongo
